import Mathlib

/-!
Verification of the hl7-unbundler worker (`src/docker/Hl7UnbundlerService.py`).

The development shallowly embeds the Python source:
* `Json` is the tagged value tree produced by `json.load`;
* `flatten_json` models the recursive flattener of the same name (object
  fields extend the accumulated name by `key + "_"`, array elements by
  `str(i) + "_"`, scalars are stored under `name[:-1]` into a dict with
  Python's update-in-place / append-if-new insertion semantics);
* `extract_entries` models the `for entry in data["entry"]` loop of
  `flatten_file`, with Python's duck-typed iteration semantics;
* `flatten_file` and `processOne` model the per-item control flow of
  `flatten_file` / `process_files` (which exception reaches which handler,
  which local files exist afterwards, acknowledge vs release).
-/

/-! ## Definitions: the embedded data model and operations -/

/-- A parsed JSON value, as produced by `json.load`: objects keep their
fields as an association list in iteration order. -/
inductive Json where
  | obj  : List (String × Json) → Json
  | arr  : List Json → Json
  | str  : String → Json
  | num  : Int → Json
  | bool : Bool → Json
  | null : Json
deriving Repr

/-- A flattened record: the `out` dict of `flatten_json`, keys in insertion
order. -/
abbrev FlatRecord := List (String × Json)

/-- Python `s.replace(c, '')` for a single-character pattern `c`: every
occurrence of the character is deleted. -/
def replaceChar (c : Char) : List Char → List Char
  | [] => []
  | a :: rest => if a = c then replaceChar c rest else a :: replaceChar c rest

/-- Python `s.replace(c1 + c2, '')` for a two-character pattern: scans left to
right, deleting each non-overlapping occurrence of the pair. -/
def replacePair (c1 c2 : Char) : List Char → List Char
  | [] => []
  | [a] => [a]
  | a :: b :: rest =>
      if a = c1 ∧ b = c2 then replacePair c1 c2 rest
      else a :: replacePair c1 c2 (b :: rest)

/-- `x.replace('\n', '').replace('\r\n', '').replace('\r', '')` from
`flatten_json` (line 214 of the source). -/
def stripNl (s : String) : String :=
  String.mk (replaceChar '\r' (replacePair '\r' '\n' (replaceChar '\n' s.data)))

/-- Python `name[:-1]`: drop the last character (identity on `""`). -/
def popLast (s : String) : String := String.mk s.data.dropLast

/-- The value stored for a scalar leaf: strings get their newlines stripped
(the `isinstance(x, unicode)` branch), every other scalar is stored as-is. -/
def cleanScalar : Json → Json
  | .str s => .str (stripNl s)
  | x => x

/-- Python dict assignment `out[k] = v`: update in place when the key is
present (keeping its position), append otherwise. -/
def dinsert (d : FlatRecord) (k : String) (v : Json) : FlatRecord :=
  if d.any (fun p => p.1 = k) then
    d.map (fun p => if p.1 = k then (k, v) else p)
  else d ++ [(k, v)]

/-- Fold a list of bindings into a dict, left to right. -/
def dinsertAll (d : FlatRecord) (ps : List (String × Json)) : FlatRecord :=
  ps.foldl (fun d p => dinsert d p.1 p.2) d

mutual
/-- The inner `flatten(x, name)` of `flatten_json`: dicts and lists recurse
with the accumulated name extended, anything else is a scalar stored under
`name[:-1]`. -/
def flattenAux : Json → String → FlatRecord → FlatRecord
  | .obj fs, name, out => flattenFields fs name out
  | .arr xs, name, out => flattenElems xs 0 name out
  | x, name, out => dinsert out (popLast name) (cleanScalar x)

/-- `for a in x: flatten(x[a], name + a + '_')` over the fields of a dict. -/
def flattenFields : List (String × Json) → String → FlatRecord → FlatRecord
  | [], _, out => out
  | (a, v) :: rest, name, out =>
      flattenFields rest name (flattenAux v (name ++ a ++ "_") out)

/-- `for a in x: flatten(a, name + str(i) + '_'); i += 1` over a list. -/
def flattenElems : List Json → Nat → String → FlatRecord → FlatRecord
  | [], _, _, out => out
  | v :: rest, i, name, out =>
      flattenElems rest (i + 1) name (flattenAux v (name ++ toString i ++ "_") out)
end

/-- `flatten_json(y)`: run the traversal from the empty name on the empty
dict. -/
def flatten_json (y : Json) : FlatRecord := flattenAux y "" []

mutual
/-- Specification-side traversal: the list of `(key, cleaned value)` bindings
the flattener inserts, in traversal order, without the dict semantics. -/
def pairsAux : Json → String → List (String × Json)
  | .obj fs, name => pairsFields fs name
  | .arr xs, name => pairsElems xs 0 name
  | x, name => [(popLast name, cleanScalar x)]

/-- Bindings contributed by a dict's fields, in order. -/
def pairsFields : List (String × Json) → String → List (String × Json)
  | [], _ => []
  | (a, v) :: rest, name =>
      pairsAux v (name ++ a ++ "_") ++ pairsFields rest name

/-- Bindings contributed by a list's elements, in order. -/
def pairsElems : List Json → Nat → String → List (String × Json)
  | [], _, _ => []
  | v :: rest, i, name =>
      pairsAux v (name ++ toString i ++ "_") ++ pairsElems rest (i + 1) name
end

mutual
/-- The leaf scalars of an `Json` tree with their traversal paths, pre-order:
object fields contribute their name as a segment, array elements their
zero-based index rendered in decimal. -/
def leafPaths : Json → List (List String × Json)
  | .obj fs => lpFields fs
  | .arr xs => lpElems xs 0
  | x => [([], x)]

/-- Leaves under a dict's fields. -/
def lpFields : List (String × Json) → List (List String × Json)
  | [] => []
  | (a, v) :: rest =>
      (leafPaths v).map (fun pr => (a :: pr.1, pr.2)) ++ lpFields rest

/-- Leaves under a list's elements, indices from `i`. -/
def lpElems : List Json → Nat → List (List String × Json)
  | [], _ => []
  | v :: rest, i =>
      (leafPaths v).map (fun pr => (toString i :: pr.1, pr.2)) ++ lpElems rest (i + 1)
end

/-- Join path segments with the `"_"` separator, no trailing separator. -/
def joinKey : List String → String
  | [] => ""
  | [a] => a
  | a :: rest => a ++ "_" ++ joinKey rest

/-- Segments concatenated each with a trailing separator (the accumulated
`name` the flattener carries). -/
def segJoin : List String → String
  | [] => ""
  | a :: rest => a ++ "_" ++ segJoin rest

def Json.strongInd {P : Json → Prop}
    (hobj : ∀ fs, (∀ kv ∈ fs, P kv.2) → P (Json.obj fs))
    (harr : ∀ xs, (∀ x ∈ xs, P x) → P (Json.arr xs))
    (hstr : ∀ s, P (Json.str s)) (hnum : ∀ n, P (Json.num n))
    (hb : ∀ b, P (Json.bool b)) (hnull : P Json.null) : ∀ x, P x
  | .obj fs => hobj fs (fun kv hkv => Json.strongInd hobj harr hstr hnum hb hnull kv.2)
  | .arr xs => harr xs (fun x hx => Json.strongInd hobj harr hstr hnum hb hnull x)
  | .str s => hstr s
  | .num n => hnum n
  | .bool b => hb b
  | .null => hnull
termination_by x => sizeOf x
decreasing_by
  · have h1 : sizeOf kv < sizeOf fs := List.sizeOf_lt_of_mem hkv
    obtain ⟨k, v⟩ := kv
    simp at h1 ⊢
    omega
  · have h1 : sizeOf x < sizeOf xs := List.sizeOf_lt_of_mem hx
    simp
    omega

/-- The fold describing how the key list of the dict grows: a key already
seen changes nothing, a new key is appended. -/
def seenFold (ks : List String) (l : List String) : List String :=
  l.foldl (fun ks k => if k ∈ ks then ks else ks ++ [k]) ks

/-- Python dict lookup `d[k]` (as an option): first binding with the key
(the keys of a dict are unique, so there is at most one). -/
def dget : FlatRecord → String → Option Json
  | [], _ => none
  | p :: t, k => if p.1 = k then some p.2 else dget t k

/-- The value the traversal-ordered binding list assigns to a key: the value
of the last binding with that key, if any. -/
def lastVal : List (String × Json) → String → Option Json
  | [], _ => none
  | p :: t, k =>
      match lastVal t k with
      | some v => some v
      | none => if p.1 = k then some p.2 else none

/-- The entry `{"a_b": 1, "a": {"b": 2}}`: two distinct traversal paths whose
joined keys coincide. -/
def collideEntry : Json :=
  Json.obj [("a_b", Json.num 1), ("a", Json.obj [("b", Json.num 2)])]

/-- Exception classes arising in the modelled code paths. -/
inductive PyErr where
  | keyError
  | typeError
  | ioError
deriving DecidableEq, Repr

/-- Python iteration `for entry in v`: lists yield their elements, strings
their characters (as one-character strings), dicts their keys; numbers,
booleans and None are not iterable (TypeError). -/
def pyIter : Json → Except PyErr (List Json)
  | .arr xs => .ok xs
  | .str s => .ok (s.data.map (fun c => Json.str (String.mk [c])))
  | .obj fs => .ok (fs.map (fun p => Json.str p.1))
  | _ => .error .typeError

/-- The entry extraction of `flatten_file`: index the parsed document at
`"entry"` (KeyError when the key is absent, TypeError when the document is
not a dict), then iterate the value. -/
def extract_entries : Json → Except PyErr (List Json)
  | .obj fs =>
      match List.lookup "entry" fs with
      | some v => pyIter v
      | none => .error .keyError
  | _ => .error .typeError

/-- Whether an `Except` result is a normal return. -/
def exIsOk {e a : Type} : Except e a → Bool
  | .ok _ => true
  | .error _ => false

/-- Scalar kinds a Python `for` loop cannot iterate. -/
def notIterable : Json → Bool
  | .num _ => true
  | .bool _ => true
  | .null => true
  | _ => false

/-- A document whose `"entry"` value is a string, not an array. -/
def strEntryDoc : Json := Json.obj [("entry", Json.str "ab")]

/-- Inputs determining one `flatten_file` run: whether `open` + `json.load`
succeeds, the parsed document when it does, and whether `to_csv` succeeds. -/
structure FlattenEnv where
  openOk : Bool
  doc : Json
  csvWriteOk : Bool

/-- `flatten_file` as control flow: open/parse errors and extraction errors
propagate to the caller; the CSV write sits in a `try` whose IOError handler
only logs. The boolean result records whether the CSV file was written. -/
def flatten_file (env : FlattenEnv) : Except PyErr Bool :=
  if env.openOk = false then .error .ioError
  else
    match extract_entries env.doc with
    | .error e => .error e
    | .ok _ => .ok env.csvWriteOk

/-- Queue-side resolution of one message. -/
inductive QAction where
  | ack
  | release
deriving DecidableEq, Repr

/-- External outcomes determining one iteration of the per-message `try`
block in `process_files`. `cleanup_file` performs two removes in order —
`os.remove(file)` first, then `os.remove` of the CSV — so each has its own
outcome. -/
structure Behavior where
  parseOk : Bool
  downloadOk : Bool
  openOk : Bool
  doc : Json
  csvWriteOk : Bool
  uploadOk : Bool
  removeFileOk : Bool
  removeCsvOk : Bool

/-- What one message's processing leaves behind: the queue action, and which
local temp files still exist. -/
structure Outcome where
  action : QAction
  fileRemains : Bool
  csvRemains : Bool
deriving DecidableEq, Repr

/-- One iteration of the message loop of `process_files`: any exception
routes to the `except` branch (`change_visibility(0)` = release, then
`continue`); only the fully successful path reaches `message.delete()`
(acknowledge). `cleanup_file` runs only after a successful upload, removing
the downloaded file first and the CSV second — if the first remove raises,
both files stay; if only the second raises, the downloaded file is already
gone but the CSV stays. The upload itself can only succeed when the CSV file
exists locally. -/
def processOne (b : Behavior) : Outcome :=
  if b.parseOk = false then ⟨.release, false, false⟩
  else if b.downloadOk = false then ⟨.release, false, false⟩
  else
    match flatten_file ⟨b.openOk, b.doc, b.csvWriteOk⟩ with
    | .error _ => ⟨.release, true, false⟩
    | .ok csvWritten =>
        if csvWritten && b.uploadOk then
          if b.removeFileOk = false then ⟨.release, true, true⟩
          else if b.removeCsvOk = false then ⟨.release, false, true⟩
          else ⟨.ack, false, false⟩
        else ⟨.release, true, csvWritten⟩

/-- `process_files`: every message of the batch is processed; a failure only
releases that message and the loop continues with the next one. -/
def process_files (bs : List Behavior) : List Outcome := bs.map processOne

/-- Every stage of one item succeeds. -/
def stagesOk (b : Behavior) : Prop :=
  b.parseOk = true ∧ b.downloadOk = true ∧ b.openOk = true ∧
  exIsOk (extract_entries b.doc) = true ∧ b.csvWriteOk = true ∧
  b.uploadOk = true ∧ b.removeFileOk = true ∧ b.removeCsvOk = true

/-- A sample well-formed parsed document. -/
def sampleDoc : Json := Json.obj [("entry", Json.arr [Json.obj [("id", Json.str "x")]])]

/-- A run in which every stage succeeds. -/
def allOkB : Behavior := ⟨true, true, true, sampleDoc, true, true, true, true⟩

/-- A run in which everything succeeds except the upload. -/
def uploadFailB : Behavior := ⟨true, true, true, sampleDoc, true, false, true, true⟩

/-- A `flatten_file` run whose CSV write fails with an IOError. -/
def csvFailEnv : FlattenEnv := ⟨true, sampleDoc, false⟩

/-- `os.path.splitext(l)[0]` (POSIX): the extension starts at the last dot of
the basename, provided some earlier character of the basename is not a dot
(leading dots mark hidden files, not extensions); the stem is everything
before the extension. -/
def splitextStem (l : List Char) : List Char :=
  match (l.reverse.takeWhile (fun c => c != '/')).dropWhile (fun c => c != '.') with
  | [] => l
  | _ :: stemRev =>
      if stemRev.any (fun c => c != '.') then
        (l.reverse.dropWhile (fun c => c != '/')).reverse ++ stemRev.reverse
      else l

/-- `outFileName = os.path.splitext(file)[0] + "tabular.csv"` (line 111). -/
def outFileName (file : String) : String :=
  String.mk (splitextStem file.data) ++ "tabular.csv"

/-! ## Theorems -/

theorem keys_dinsert (d : FlatRecord) (k : String) (v : Json) :
    (dinsert d k v).map Prod.fst =
      if k ∈ d.map Prod.fst then d.map Prod.fst else d.map Prod.fst ++ [k] := by
  unfold dinsert
  by_cases h : d.any (fun p => p.1 = k)
  · have hmem : k ∈ d.map Prod.fst := by
      rcases List.any_eq_true.mp h with ⟨p, hp, hpk⟩
      exact List.mem_map.mpr ⟨p, hp, by simpa using (of_decide_eq_true hpk).symm ▸ rfl⟩
    rw [if_pos h, if_pos hmem, List.map_map]
    apply List.map_congr_left
    intro p _
    simp only [Function.comp]
    split
    · next heq => simp [heq]
    · rfl
  · have hmem : k ∉ d.map Prod.fst := by
      intro hk
      rcases List.mem_map.mp hk with ⟨p, hp, hpk⟩
      exact h (List.any_eq_true.mpr ⟨p, hp, by simp [hpk]⟩)
    rw [if_neg h, if_neg hmem, List.map_append]
    rfl

theorem keys_dinsertAll (d : FlatRecord) (ps : List (String × Json)) :
    (dinsertAll d ps).map Prod.fst = seenFold (d.map Prod.fst) (ps.map Prod.fst) := by
  induction ps generalizing d with
  | nil => rfl
  | cons p rest ih =>
    show (dinsertAll (dinsert d p.1 p.2) rest).map Prod.fst = _
    rw [ih, keys_dinsert]
    show _ = seenFold (d.map Prod.fst) (p.1 :: rest.map Prod.fst)
    unfold seenFold
    simp only [List.foldl_cons]

theorem seenFold_toFinset (l : List String) :
    ∀ ks : List String, (seenFold ks l).toFinset = ks.toFinset ∪ l.toFinset := by
  induction l with
  | nil => intro ks; simp [seenFold]
  | cons k t ih =>
    intro ks
    show (seenFold (if k ∈ ks then ks else ks ++ [k]) t).toFinset = _
    rw [ih]
    by_cases h : k ∈ ks
    · rw [if_pos h]
      ext a
      simp only [Finset.mem_union, List.mem_toFinset, List.mem_cons]
      constructor
      · rintro (ha | ha) <;> tauto
      · rintro (ha | rfl | ha) <;> tauto
    · rw [if_neg h]
      ext a
      simp only [Finset.mem_union, List.mem_toFinset, List.mem_append,
        List.mem_singleton, List.mem_cons]
      tauto

theorem seenFold_nodup (l : List String) :
    ∀ ks : List String, ks.Nodup → (seenFold ks l).Nodup := by
  induction l with
  | nil => intro ks h; exact h
  | cons k t ih =>
    intro ks h
    show (seenFold (if k ∈ ks then ks else ks ++ [k]) t).Nodup
    apply ih
    by_cases hk : k ∈ ks
    · rw [if_pos hk]; exact h
    · rw [if_neg hk]
      simp [List.nodup_append, h, hk]

theorem seenFold_length_dedup (l : List String) :
    (seenFold [] l).length = l.dedup.length := by
  have hnd : (seenFold [] l).Nodup := seenFold_nodup l [] List.nodup_nil
  have hfin : (seenFold [] l).toFinset = l.toFinset := by
    rw [seenFold_toFinset]
    simp
  calc (seenFold [] l).length = (seenFold [] l).toFinset.card :=
        (List.toFinset_card_of_nodup hnd).symm
    _ = l.toFinset.card := by rw [hfin]
    _ = l.dedup.length := List.card_toFinset l

theorem dget_append (l1 l2 : FlatRecord) (k : String) :
    dget (l1 ++ l2) k =
      match dget l1 k with
      | some v => some v
      | none => dget l2 k := by
  induction l1 with
  | nil => simp [dget]
  | cons p t ih =>
    by_cases hp : p.1 = k
    · simp [dget, hp]
    · simp only [List.cons_append, dget, if_neg hp]
      exact ih

theorem dget_none_of_not_any (d : FlatRecord) (k : String)
    (h : ¬ d.any (fun p => p.1 = k)) : dget d k = none := by
  induction d with
  | nil => rfl
  | cons p t ih =>
    have hp : ¬ p.1 = k := fun hpk => h (by simp [List.any_cons, hpk])
    have ht : ¬ t.any (fun p => p.1 = k) := fun hta => h (by simp [List.any_cons, hta])
    simp [dget, hp, ih ht]

theorem dget_update (d : FlatRecord) (k k1 : String) (v : Json) :
    dget (d.map (fun p => if p.1 = k1 then (k1, v) else p)) k =
      if k = k1 then (if d.any (fun p => p.1 = k1) then some v else none)
      else dget d k := by
  induction d with
  | nil => simp [dget]
  | cons p t ih =>
    by_cases hk : k = k1
    · subst hk
      by_cases hp : p.1 = k
      · have hany : (p :: t).any (fun q => q.1 = k) = true := by
          simp [List.any_cons, hp]
        simp [List.map_cons, if_pos hp, dget, hany, ih]
      · simp only [List.map_cons, if_neg hp, dget, ih, if_pos rfl]
        have hc : ((p :: t).any fun q => q.1 = k) = (t.any fun q => q.1 = k) := by
          simp [List.any_cons, hp]
        rw [hc]
    · have hk1k : ¬ k1 = k := fun h => hk h.symm
      by_cases hp : p.1 = k1
      · have hpk : ¬ p.1 = k := by rw [hp]; exact hk1k
        simp [List.map_cons, if_pos hp, dget, hk1k, ih, hk, hpk]
      · by_cases hpk : p.1 = k
        · simp [List.map_cons, dget, hp, hpk, hk]
        · simp [List.map_cons, if_neg hp, dget, hpk, ih, hk]

theorem dget_dinsert (d : FlatRecord) (k k1 : String) (v : Json) :
    dget (dinsert d k1 v) k = if k = k1 then some v else dget d k := by
  unfold dinsert
  by_cases h : d.any (fun p => p.1 = k1)
  · rw [if_pos h, dget_update, if_pos h]
  · rw [if_neg h, dget_append]
    by_cases hk : k = k1
    · subst hk
      rw [dget_none_of_not_any d k h]
      simp [dget]
    · have hk1k : ¬ k1 = k := fun h2 => hk h2.symm
      cases hf : dget d k with
      | some x => simp [hf, hk]
      | none => simp [dget, hf, hk1k, hk]

theorem strMk_data (s : String) : String.mk s.data = s := by cases s; rfl

theorem data_ne_nil_of_ne_empty {t : String} (h : t ≠ "") : t.data ≠ [] := by
  intro hnil
  apply h
  cases t
  simp only at hnil
  simp [hnil]

theorem popLast_append (s t : String) (h : t ≠ "") :
    popLast (s ++ t) = s ++ popLast t := by
  have hd : t.data ≠ [] := data_ne_nil_of_ne_empty h
  cases s with
  | mk sd =>
    cases t with
    | mk td =>
      show String.mk ((String.mk sd ++ String.mk td).data).dropLast = _
      have : (String.mk sd ++ String.mk td) = String.mk (sd ++ td) := rfl
      rw [this]
      simp only [popLast]
      have h2 : (sd ++ td).dropLast = sd ++ td.dropLast :=
        List.dropLast_append_of_ne_nil sd (by simpa using hd)
      show String.mk ((sd ++ td).dropLast) = _
      rw [h2]
      rfl

theorem dinsertAll_append (d : FlatRecord) (l1 l2 : List (String × Json)) :
    dinsertAll d (l1 ++ l2) = dinsertAll (dinsertAll d l1) l2 :=
  List.foldl_append _ _ _ _

theorem flattenFields_eq_of (fs : List (String × Json))
    (IH : ∀ kv ∈ fs, ∀ name out,
      flattenAux kv.2 name out = dinsertAll out (pairsAux kv.2 name)) :
    ∀ name out, flattenFields fs name out = dinsertAll out (pairsFields fs name) := by
  induction fs with
  | nil => intro name out; simp [flattenFields, pairsFields, dinsertAll]
  | cons kv rest ih =>
    obtain ⟨a, v⟩ := kv
    intro name out
    have hv := IH (a, v) (by simp)
    have hrest := ih (fun kv hkv => IH kv (by simp [hkv]))
    simp only [flattenFields, pairsFields, dinsertAll_append]
    rw [hv, hrest]

theorem flattenElems_eq_of (xs : List Json)
    (IH : ∀ x ∈ xs, ∀ name out,
      flattenAux x name out = dinsertAll out (pairsAux x name)) :
    ∀ i name out, flattenElems xs i name out = dinsertAll out (pairsElems xs i name) := by
  induction xs with
  | nil => intro i name out; simp [flattenElems, pairsElems, dinsertAll]
  | cons v rest ih =>
    intro i name out
    have hv := IH v (by simp)
    have hrest := ih (fun x hx => IH x (by simp [hx]))
    simp only [flattenElems, pairsElems, dinsertAll_append]
    rw [hv, hrest]

theorem flattenAux_eq : ∀ (x : Json) (name : String) (out : FlatRecord),
    flattenAux x name out = dinsertAll out (pairsAux x name) := by
  intro x
  induction x using Json.strongInd with
  | hobj fs IH => intro name out; exact flattenFields_eq_of fs IH name out
  | harr xs IH => intro name out; exact flattenElems_eq_of xs IH 0 name out
  | hstr s => intro name out; simp [flattenAux, pairsAux, dinsertAll]
  | hnum n => intro name out; simp [flattenAux, pairsAux, dinsertAll]
  | hb b => intro name out; simp [flattenAux, pairsAux, dinsertAll]
  | hnull => intro name out; simp [flattenAux, pairsAux, dinsertAll]

theorem pairsFields_eq_of (fs : List (String × Json))
    (IH : ∀ kv ∈ fs, ∀ name, pairsAux kv.2 name =
      (leafPaths kv.2).map (fun pr => (popLast (name ++ segJoin pr.1), cleanScalar pr.2))) :
    ∀ name, pairsFields fs name =
      (lpFields fs).map (fun pr => (popLast (name ++ segJoin pr.1), cleanScalar pr.2)) := by
  induction fs with
  | nil => intro name; simp [pairsFields, lpFields]
  | cons kv rest ih =>
    obtain ⟨a, v⟩ := kv
    intro name
    have hv := IH (a, v) (by simp) (name ++ a ++ "_")
    have hrest := ih (fun kv hkv => IH kv (by simp [hkv])) name
    simp only [pairsFields, lpFields, List.map_append, List.map_map]
    rw [hv, hrest]
    congr 1
    apply List.map_congr_left
    intro pr _
    simp only [Function.comp]
    congr 2
    show name ++ a ++ "_" ++ segJoin pr.1 = name ++ segJoin (a :: pr.1)
    simp [segJoin, String.append_assoc]

theorem pairsElems_eq_of (xs : List Json)
    (IH : ∀ x ∈ xs, ∀ name, pairsAux x name =
      (leafPaths x).map (fun pr => (popLast (name ++ segJoin pr.1), cleanScalar pr.2))) :
    ∀ i name, pairsElems xs i name =
      (lpElems xs i).map (fun pr => (popLast (name ++ segJoin pr.1), cleanScalar pr.2)) := by
  induction xs with
  | nil => intro i name; simp [pairsElems, lpElems]
  | cons v rest ih =>
    intro i name
    have hv := IH v (by simp) (name ++ toString i ++ "_")
    have hrest := ih (fun x hx => IH x (by simp [hx])) (i + 1) name
    simp only [pairsElems, lpElems, List.map_append, List.map_map]
    rw [hv, hrest]
    congr 1
    apply List.map_congr_left
    intro pr _
    simp only [Function.comp]
    congr 2
    show name ++ toString i ++ "_" ++ segJoin pr.1 = name ++ segJoin (toString i :: pr.1)
    simp [segJoin, String.append_assoc]

theorem pairsAux_eq : ∀ (x : Json) (name : String),
    pairsAux x name =
      (leafPaths x).map (fun pr => (popLast (name ++ segJoin pr.1), cleanScalar pr.2)) := by
  intro x
  induction x using Json.strongInd with
  | hobj fs IH => intro name; exact pairsFields_eq_of fs IH name
  | harr xs IH => intro name; exact pairsElems_eq_of xs IH 0 name
  | hstr s => intro name; simp [pairsAux, leafPaths, segJoin]
  | hnum n => intro name; simp [pairsAux, leafPaths, segJoin]
  | hb b => intro name; simp [pairsAux, leafPaths, segJoin]
  | hnull => intro name; simp [pairsAux, leafPaths, segJoin]

theorem segJoin_ne_empty (a : String) (t : List String) : segJoin (a :: t) ≠ "" := by
  intro h
  have h2 := congrArg String.data h
  simp only [segJoin] at h2
  have : (a ++ "_" ++ segJoin t).data = a.data ++ '_' :: (segJoin t).data := by
    cases a with
    | mk ad =>
      cases hsj : segJoin t with
      | mk sd => simp [String.data_append]
  rw [this] at h2
  simp at h2

theorem popLast_segJoin : ∀ p : List String, popLast (segJoin p) = joinKey p
  | [] => rfl
  | [a] => by
    have h1 : segJoin [a] = a ++ "_" := by simp [segJoin]
    rw [h1, popLast_append a "_" (by decide)]
    have : popLast "_" = "" := rfl
    rw [this]
    simp [joinKey]
  | a :: b :: t => by
    have h1 : segJoin (a :: b :: t) = (a ++ "_") ++ segJoin (b :: t) := by
      simp [segJoin, String.append_assoc]
    rw [h1, popLast_append _ _ (segJoin_ne_empty b t), popLast_segJoin (b :: t)]
    simp [joinKey, String.append_assoc]

/-- The flattener, run from the top: it builds the dict, in pre-order
traversal order, from the `(joined key, cleaned scalar)` pair of every leaf. -/
theorem flatten_json_leafPaths (y : Json) :
    flatten_json y =
      dinsertAll [] ((leafPaths y).map (fun pr => (joinKey pr.1, cleanScalar pr.2))) := by
  show flattenAux y "" [] = _
  rw [flattenAux_eq, pairsAux_eq]
  congr 1
  apply List.map_congr_left
  intro pr _
  have : ("" : String) ++ segJoin pr.1 = segJoin pr.1 := by simp
  rw [this, popLast_segJoin]

theorem replaceChar_eq_filter (c : Char) : ∀ l : List Char,
    replaceChar c l = l.filter (fun a => a ≠ c)
  | [] => rfl
  | a :: rest => by
    show (if a = c then replaceChar c rest else a :: replaceChar c rest) = _
    by_cases h : a = c
    · rw [if_pos h, List.filter_cons_of_neg (by simp [h]), replaceChar_eq_filter c rest]
    · rw [if_neg h, List.filter_cons_of_pos (by simp [h]), replaceChar_eq_filter c rest]

theorem replacePair_id_of_not_mem (c1 c2 : Char) : ∀ l : List Char,
    c2 ∉ l → replacePair c1 c2 l = l
  | [] => fun _ => rfl
  | [_] => fun _ => rfl
  | a :: b :: rest => fun h => by
    have hb : ¬ b = c2 := fun hbc => h (by simp [hbc])
    show (if a = c1 ∧ b = c2 then replacePair c1 c2 rest
          else a :: replacePair c1 c2 (b :: rest)) = a :: b :: rest
    rw [if_neg (fun hc => hb hc.2)]
    rw [replacePair_id_of_not_mem c1 c2 (b :: rest)
      (fun hm => h (List.mem_cons_of_mem a hm))]

theorem stripNl_eq_filter (s : String) :
    stripNl s = String.mk (s.data.filter (fun c => c ≠ '\n' ∧ c ≠ '\r')) := by
  unfold stripNl
  rw [replaceChar_eq_filter '\n' s.data]
  rw [replacePair_id_of_not_mem '\r' '\n' _ (by simp [List.mem_filter])]
  rw [replaceChar_eq_filter '\r' _]
  rw [List.filter_filter]
  show String.mk _ = String.mk _
  congr 1
  apply List.filter_congr
  intro a _
  by_cases hn : a = '\n' <;> by_cases hr : a = '\r' <;> simp [hn, hr]

theorem dget_dinsertAll (d : FlatRecord) (ps : List (String × Json)) (k : String) :
    dget (dinsertAll d ps) k =
      match lastVal ps k with
      | some v => some v
      | none => dget d k := by
  induction ps generalizing d with
  | nil => simp [dinsertAll, lastVal]
  | cons p rest ih =>
    show dget (dinsertAll (dinsert d p.1 p.2) rest) k = _
    rw [ih]
    show _ = match lastVal (p :: rest) k with
      | some v => some v
      | none => dget d k
    simp only [lastVal]
    cases hrest : lastVal rest k with
    | some v => rfl
    | none =>
      rw [dget_dinsert]
      by_cases hk : k = p.1
      · rw [if_pos hk, if_pos hk.symm]
      · rw [if_neg hk, if_neg (fun h => hk h.symm)]

theorem popLast_key (k : String) : popLast ("" ++ k ++ "_") = k := by
  have h1 : ("" : String) ++ k ++ "_" = k ++ "_" := by simp
  rw [h1, popLast_append k "_" (by decide)]
  have h2 : popLast "_" = "" := rfl
  rw [h2]
  simp

theorem flatten_single (k : String) (x : Json)
    (hx : (∀ fs, x ≠ Json.obj fs) ∧ (∀ xs, x ≠ Json.arr xs)) :
    flatten_json (Json.obj [(k, x)]) = [(k, cleanScalar x)] := by
  have h1 : flatten_json (Json.obj [(k, x)]) =
      flattenAux x ("" ++ k ++ "_") [] := by
    cases x with
    | obj fs => exact absurd rfl (hx.1 fs)
    | arr xs => exact absurd rfl (hx.2 xs)
    | str s => rfl
    | num n => rfl
    | bool b => rfl
    | null => rfl
  rw [h1]
  cases x with
  | obj fs => exact absurd rfl (hx.1 fs)
  | arr xs => exact absurd rfl (hx.2 xs)
  | str s => show dinsert [] (popLast ("" ++ k ++ "_")) _ = _; rw [popLast_key]; rfl
  | num n => show dinsert [] (popLast ("" ++ k ++ "_")) _ = _; rw [popLast_key]; rfl
  | bool b => show dinsert [] (popLast ("" ++ k ++ "_")) _ = _; rw [popLast_key]; rfl
  | null => show dinsert [] (popLast ("" ++ k ++ "_")) _ = _; rw [popLast_key]; rfl

/-- C5: a string scalar leaf is stored with every `\n` and `\r` character
removed (so all of `\n`, `\r\n`, `\r` disappear, replaced by nothing), while
numeric, boolean and null leaves are stored unchanged; in particular
`{"note": "line1\r\nline2"}` flattens to `{"note": "line1line2"}`. -/
theorem c5_newline_stripping :
    ∀ (k s : String) (n : Int) (b : Bool),
      flatten_json (Json.obj [(k, Json.str s)]) =
        [(k, Json.str (String.mk (s.data.filter (fun c => c ≠ '\n' ∧ c ≠ '\r'))))] ∧
      flatten_json (Json.obj [(k, Json.num n)]) = [(k, Json.num n)] ∧
      flatten_json (Json.obj [(k, Json.bool b)]) = [(k, Json.bool b)] ∧
      flatten_json (Json.obj [(k, Json.null)]) = [(k, Json.null)] ∧
      flatten_json (Json.obj [("note", Json.str "line1\r\nline2")]) =
        [("note", Json.str "line1line2")] := by
  intro k s n b
  refine ⟨?_, ?_, ?_, ?_, ?_⟩
  · rw [flatten_single k (Json.str s) ⟨fun _ => by simp, fun _ => by simp⟩]
    show [(k, Json.str (stripNl s))] = _
    rw [stripNl_eq_filter]
  · exact flatten_single k (Json.num n) ⟨fun _ => by simp, fun _ => by simp⟩
  · exact flatten_single k (Json.bool b) ⟨fun _ => by simp, fun _ => by simp⟩
  · exact flatten_single k Json.null ⟨fun _ => by simp, fun _ => by simp⟩
  · rfl

/-- C6: the flattener is the pre-order depth-first traversal that joins field
names and zero-based array indices with `"_"`, records each scalar leaf under
the joined key (no trailing separator) after cleaning, and inserts the
bindings into the dict in traversal order; the nested example flattens as the
spec shows. -/
theorem c6_preorder_traversal :
    ∀ y : Json,
      flatten_json y =
        dinsertAll [] ((leafPaths y).map (fun pr => (joinKey pr.1, cleanScalar pr.2))) ∧
      flatten_json (Json.obj [("name", Json.obj [("given", Json.arr [Json.str "Jane"]),
          ("family", Json.str "Doe")]), ("active", Json.bool true)]) =
        [("name_given_0", Json.str "Jane"), ("name_family", Json.str "Doe"),
          ("active", Json.bool true)] := by
  intro y
  exact ⟨flatten_json_leafPaths y, by rfl⟩

/-- C7: empty objects and empty arrays contribute no binding at all (the
traversal returns the dict unchanged and such subtrees have no leaves), while
a null leaf is recorded as a present key with a null value; the spec's
example `{"tags": [], "id": "x"}` flattens to `{"id": "x"}`. -/
theorem c7_empty_collections :
    ∀ (name k : String) (out : FlatRecord),
      flattenAux (Json.obj []) name out = out ∧
      flattenAux (Json.arr []) name out = out ∧
      leafPaths (Json.obj []) = [] ∧
      leafPaths (Json.arr []) = [] ∧
      flatten_json (Json.obj [(k, Json.null)]) = [(k, Json.null)] ∧
      flatten_json (Json.obj [("tags", Json.arr []), ("id", Json.str "x")]) =
        [("id", Json.str "x")] := by
  intro name k out
  refine ⟨rfl, rfl, rfl, rfl, ?_, by rfl⟩
  exact flatten_single k Json.null ⟨fun _ => by simp, fun _ => by simp⟩

/-- C1 is false on the code: in `{"a_b": 1, "a": {"b": 2}}` the two distinct
leaf paths `["a_b"]` and `["a", "b"]` join to the same key `"a_b"`, and the
flattened record has one key although the tree has two leaf scalars. -/
theorem c1_counterexample :
    (leafPaths collideEntry).map Prod.fst = [["a_b"], ["a", "b"]] ∧
    (["a_b"] : List String) ≠ ["a", "b"] ∧
    (leafPaths collideEntry).map (fun pr => joinKey pr.1) = ["a_b", "a_b"] ∧
    (leafPaths collideEntry).length = 2 ∧
    (flatten_json collideEntry).length = 1 := by
  refine ⟨rfl, by decide, by rfl, rfl, rfl⟩

/-- C1 amended: the keys of the flattened record are pairwise distinct, and
their number equals the number of *distinct* joined leaf keys (equivalently, a
key appears in the record iff some leaf path joins to it); when distinct
traversal paths collide on the same joined key the record has fewer keys than
the tree has leaves. -/
theorem c1_amended :
    ∀ y : Json,
      ((flatten_json y).map Prod.fst).Nodup ∧
      (flatten_json y).length =
        ((leafPaths y).map (fun pr => joinKey pr.1)).dedup.length ∧
      (∀ k, k ∈ (flatten_json y).map Prod.fst ↔
        k ∈ (leafPaths y).map (fun pr => joinKey pr.1)) := by
  intro y
  have hkeys : (flatten_json y).map Prod.fst =
      seenFold [] ((leafPaths y).map (fun pr => joinKey pr.1)) := by
    rw [flatten_json_leafPaths, keys_dinsertAll, List.map_map]
    rfl
  refine ⟨?_, ?_, ?_⟩
  · rw [hkeys]
    exact seenFold_nodup _ [] List.nodup_nil
  · have hlen : (flatten_json y).length = ((flatten_json y).map Prod.fst).length := by
      simp
    rw [hlen, hkeys, seenFold_length_dedup]
  · intro k
    rw [hkeys]
    have h1 : k ∈ seenFold [] ((leafPaths y).map (fun pr => joinKey pr.1)) ↔
        k ∈ (seenFold [] ((leafPaths y).map (fun pr => joinKey pr.1))).toFinset := by
      simp [List.mem_toFinset]
    rw [h1, seenFold_toFinset]
    simp only [List.toFinset_nil, Finset.empty_union, List.mem_toFinset]

/-- C10: the value the flattened record binds to a key is the cleaned value of
the *last* leaf, in traversal order, whose joined path equals that key;
earlier colliding leaves are overwritten. -/
theorem c10_last_leaf_wins :
    ∀ (y : Json) (k : String),
      dget (flatten_json y) k =
        lastVal ((leafPaths y).map (fun pr => (joinKey pr.1, cleanScalar pr.2))) k := by
  intro y k
  rw [flatten_json_leafPaths, dget_dinsertAll]
  cases h : lastVal ((leafPaths y).map (fun pr => (joinKey pr.1, cleanScalar pr.2))) k with
  | some v => rfl
  | none => rfl

/-- C3 is false on the code: a document whose `"entry"` value is the string
`"ab"` (present but not an array) raises no error — the string is iterated
and each character becomes one Entry. -/
theorem c3_counterexample :
    List.lookup "entry" [("entry", Json.str "ab")] = some (Json.str "ab") ∧
    (∀ xs, Json.str "ab" ≠ Json.arr xs) ∧
    extract_entries strEntryDoc = .ok [Json.str "a", Json.str "b"] := by
  refine ⟨rfl, fun xs => by simp, rfl⟩

/-- C3 amended: extraction of a dict document fails iff the `"entry"` field
is absent (KeyError) or its value is a non-iterable scalar (number, boolean
or null: TypeError); an array value yields its elements in order, while a
string or object value is iterated element-wise without error. -/
theorem c3_amended :
    ∀ (fs : List (String × Json)) (xs : List Json) (v : Json),
      (List.lookup "entry" fs = some (Json.arr xs) →
        extract_entries (Json.obj fs) = .ok xs) ∧
      (List.lookup "entry" fs = none →
        extract_entries (Json.obj fs) = .error PyErr.keyError) ∧
      (List.lookup "entry" fs = some v →
        exIsOk (extract_entries (Json.obj fs)) = !(notIterable v)) := by
  intro fs xs v
  refine ⟨?_, ?_, ?_⟩
  · intro h
    simp [extract_entries, h, pyIter]
  · intro h
    simp [extract_entries, h]
  · intro h
    simp only [extract_entries, h]
    cases v <;> rfl

/-- Witness for `c3_amended` at concrete documents. -/
theorem c3_amended_witness :
    extract_entries (Json.obj [("entry", Json.arr [Json.num 1])]) = .ok [Json.num 1] ∧
    extract_entries (Json.obj [("id", Json.num 1)]) = .error PyErr.keyError ∧
    exIsOk (extract_entries (Json.obj [("entry", Json.null)])) = !(notIterable Json.null) :=
  ⟨(c3_amended [("entry", Json.arr [Json.num 1])] [Json.num 1] Json.null).1 rfl,
   (c3_amended [("id", Json.num 1)] [] Json.null).2.1 rfl,
   (c3_amended [("entry", Json.null)] [] Json.null).2.2 rfl⟩

/-- C4: an item is acknowledged iff every stage succeeds, it is released iff
some stage fails, and the batch loop processes every message exactly once
regardless of failures. -/
theorem c4_ack_iff_success :
    ∀ (bs : List Behavior) (b : Behavior),
      ((processOne b).action = QAction.ack ↔ stagesOk b) ∧
      ((processOne b).action = QAction.release ↔ ¬ stagesOk b) ∧
      process_files bs = bs.map processOne ∧
      (process_files bs).length = bs.length := by
  intro bs b
  have hmain : (processOne b).action = QAction.ack ↔ stagesOk b := by
    obtain ⟨p, d, o, doc, c, u, rf, rc⟩ := b
    unfold processOne stagesOk flatten_file
    cases p <;> cases d <;> cases o <;> cases c <;> cases u <;> cases rf <;> cases rc <;>
      simp <;>
      (try cases hx : extract_entries doc) <;> simp [exIsOk, hx]
  have hor : (processOne b).action = QAction.ack ∨ (processOne b).action = QAction.release := by
    cases h : (processOne b).action
    · exact Or.inl rfl
    · exact Or.inr rfl
  refine ⟨hmain, ?_, rfl, by simp [process_files]⟩
  constructor
  · intro hrel hs
    have hack := hmain.mpr hs
    rw [hack] at hrel
    exact absurd hrel (by simp)
  · intro hns
    rcases hor with h | h
    · exact absurd (hmain.mp h) hns
    · exact h

/-- C2 is false on the code: when the upload fails after a successful
flatten, the item is released but `cleanup_file` is never reached — both the
downloaded file and the generated CSV remain on disk. -/
theorem c2_counterexample :
    (processOne uploadFailB).action = QAction.release ∧
    (processOne uploadFailB).fileRemains = true ∧
    (processOne uploadFailB).csvRemains = true := ⟨rfl, rfl, rfl⟩

/-- C2 amended: local temp files are removed only by `cleanup_file` on the
fully successful (acknowledged) path, where both are removed; in particular,
when the upload fails after a successful flatten the item is released and
both the downloaded file and the generated CSV remain on disk. -/
theorem c2_amended :
    ∀ b : Behavior,
      (stagesOk b →
        processOne b = ⟨QAction.ack, false, false⟩) ∧
      (b.parseOk = true → b.downloadOk = true → b.openOk = true →
        exIsOk (extract_entries b.doc) = true → b.csvWriteOk = true →
        b.uploadOk = false →
        processOne b = ⟨QAction.release, true, true⟩) := by
  intro b
  obtain ⟨p, d, o, doc, c, u, rf, rc⟩ := b
  constructor
  · intro hs
    obtain ⟨hp, hd, ho, hx, hc, hu, hrf, hrc⟩ := hs
    simp only at hp hd ho hx hc hu hrf hrc
    subst hp; subst hd; subst ho; subst hc; subst hu; subst hrf; subst hrc
    unfold processOne flatten_file
    cases hex : extract_entries doc with
    | ok es => simp
    | error e => rw [hex] at hx; simp [exIsOk] at hx
  · intro hp hd ho hx hc hu
    simp only at hp hd ho hx hc hu
    subst hp; subst hd; subst ho; subst hc; subst hu
    unfold processOne flatten_file
    cases hex : extract_entries doc with
    | error e => rw [hex] at hx; simp [exIsOk] at hx
    | ok es => simp

/-- Witness for `c2_amended`: the all-success run and the failed-upload run. -/
theorem c2_amended_witness :
    processOne allOkB = ⟨QAction.ack, false, false⟩ ∧
    processOne uploadFailB = ⟨QAction.release, true, true⟩ :=
  ⟨(c2_amended allOkB).1 ⟨rfl, rfl, rfl, rfl, rfl, rfl, rfl, rfl⟩,
   (c2_amended uploadFailB).2 rfl rfl rfl rfl rfl rfl⟩

/-- C8 is false on the code: a CSV-write IOError inside `flatten_file` is
caught and only logged; the function returns normally, so the caller sees no
error at all (`.ok false`: normal return, no CSV written). -/
theorem c8_counterexample :
    csvFailEnv.csvWriteOk = false ∧ flatten_file csvFailEnv = .ok false :=
  ⟨rfl, rfl⟩

/-- C8 amended: `flatten_file` propagates only open/parse and extraction
errors; a failing CSV write is swallowed and the function returns normally,
so the local I/O failure reaches the per-item outcome only indirectly — the
upload of the missing CSV then fails and the item is released. -/
theorem c8_amended :
    ∀ (env : FlattenEnv) (b : Behavior),
      (env.openOk = true → exIsOk (extract_entries env.doc) = true →
        flatten_file env = .ok env.csvWriteOk) ∧
      (b.parseOk = true → b.downloadOk = true → b.openOk = true →
        exIsOk (extract_entries b.doc) = true → b.csvWriteOk = false →
        (processOne b).action = QAction.release) := by
  intro env b
  constructor
  · intro ho hx
    obtain ⟨o, doc, c⟩ := env
    simp only at ho hx
    subst ho
    unfold flatten_file
    cases hex : extract_entries doc with
    | ok es => simp
    | error e => rw [hex] at hx; simp [exIsOk] at hx
  · intro hp hd ho hx hc
    obtain ⟨p, d, o, doc, c, u, rf, rc⟩ := b
    simp only at hp hd ho hx hc
    subst hp; subst hd; subst ho; subst hc
    unfold processOne flatten_file
    cases hex : extract_entries doc with
    | error e => simp
    | ok es => simp

/-- Witness for `c8_amended` at a concrete failing CSV write. -/
theorem c8_amended_witness :
    flatten_file csvFailEnv = .ok csvFailEnv.csvWriteOk ∧
    (processOne ⟨true, true, true, sampleDoc, false, true, true, true⟩).action =
      QAction.release :=
  ⟨(c8_amended csvFailEnv allOkB).1 rfl rfl,
   (c8_amended csvFailEnv ⟨true, true, true, sampleDoc, false, true, true, true⟩).2
     rfl rfl rfl rfl rfl⟩

theorem takeWhile_append_all {α} (p : α → Bool) :
    ∀ (l1 l2 : List α), (∀ a ∈ l1, p a = true) →
      (l1 ++ l2).takeWhile p = l1 ++ l2.takeWhile p
  | [], l2, _ => rfl
  | a :: t, l2, h => by
    have ha : p a = true := h a (by simp)
    simp [List.takeWhile_cons, ha,
      takeWhile_append_all p t l2 (fun x hx => h x (by simp [hx]))]

theorem dropWhile_append_all {α} (p : α → Bool) :
    ∀ (l1 l2 : List α), (∀ a ∈ l1, p a = true) →
      (l1 ++ l2).dropWhile p = l2.dropWhile p
  | [], l2, _ => rfl
  | a :: t, l2, h => by
    have ha : p a = true := h a (by simp)
    simp [List.dropWhile_cons, ha,
      dropWhile_append_all p t l2 (fun x hx => h x (by simp [hx]))]

/-- C9: the output name is the input name with its extension removed and the
fixed suffix `"tabular.csv"` appended: for a name `stem.ext` (dot-free,
slash-free stem and extension) the output is `stem ++ "tabular.csv"`, and for
a dot-free input name the whole name is the base name. -/
theorem c9_output_naming :
    ∀ (stem ext name : String),
      (stem.data ≠ [] →
       (∀ c ∈ stem.data, c ≠ '.' ∧ c ≠ '/') →
       (∀ c ∈ ext.data, c ≠ '.' ∧ c ≠ '/') →
       outFileName (stem ++ "." ++ ext) = stem ++ "tabular.csv") ∧
      ((∀ c ∈ name.data, c ≠ '.') →
       outFileName name = name ++ "tabular.csv") := by
  intro stem ext name
  constructor
  · intro hne hstem hext
    have hd : (stem ++ "." ++ ext).data = stem.data ++ '.' :: ext.data := by
      rw [String.data_append, String.data_append]
      simp [List.append_assoc]
    have key : splitextStem (stem ++ "." ++ ext).data = stem.data := by
      unfold splitextStem
      rw [hd]
      have hrev : (stem.data ++ '.' :: ext.data).reverse =
          ext.data.reverse ++ '.' :: stem.data.reverse := by
        rw [List.reverse_append, List.reverse_cons, List.append_assoc]
        rfl
      rw [hrev]
      have hall : ∀ c ∈ ext.data.reverse ++ '.' :: stem.data.reverse,
          (c != '/') = true := by
        intro c hc
        rcases List.mem_append.mp hc with hc | hc
        · exact bne_iff_ne.mpr (hext c (List.mem_reverse.mp hc)).2
        · rcases List.mem_cons.mp hc with rfl | hc
          · rfl
          · exact bne_iff_ne.mpr (hstem c (List.mem_reverse.mp hc)).2
      rw [List.takeWhile_eq_self_iff.mpr hall, List.dropWhile_eq_nil_iff.mpr hall]
      have hdrop : (ext.data.reverse ++ '.' :: stem.data.reverse).dropWhile
          (fun c => c != '.') = '.' :: stem.data.reverse := by
        rw [dropWhile_append_all _ _ _
          (fun c hc => bne_iff_ne.mpr (hext c (List.mem_reverse.mp hc)).1)]
        simp [List.dropWhile_cons]
      rw [hdrop]
      have hany : (stem.data.reverse.any (fun c => c != '.')) = true := by
        rcases List.exists_mem_of_ne_nil stem.data hne with ⟨a, ha⟩
        apply List.any_eq_true.mpr
        exact ⟨a, List.mem_reverse.mpr ha, bne_iff_ne.mpr (hstem a ha).1⟩
      show (if (stem.data.reverse.any (fun c => c != '.')) = true then
          ([] : List Char).reverse ++ stem.data.reverse.reverse
        else stem.data ++ '.' :: ext.data) = stem.data
      rw [if_pos hany]
      simp
    unfold outFileName
    rw [key, strMk_data]
  · intro hname
    have key : splitextStem name.data = name.data := by
      unfold splitextStem
      have hdrop : (name.data.reverse.takeWhile (fun c => c != '/')).dropWhile
          (fun c => c != '.') = [] := by
        apply List.dropWhile_eq_nil_iff.mpr
        intro c hc
        exact bne_iff_ne.mpr
          (hname c (List.mem_reverse.mp ((List.takeWhile_sublist _).mem hc)))
      rw [hdrop]
    unfold outFileName
    rw [key, strMk_data]

/-- Witness for `c9_output_naming` at `"foo.json"` and `"bar"`. -/
theorem c9_output_naming_witness :
    outFileName "foo.json" = "footabular.csv" ∧
    outFileName "bar" = "bartabular.csv" :=
  ⟨(c9_output_naming "foo" "json" "bar").1 (by decide) (by decide) (by decide),
   (c9_output_naming "foo" "json" "bar").2 (by decide)⟩
